import Mathlib

/-!
Verification of the c2png rendering pipeline (src/main.c) against its
natural-language specification.

Modelling conventions:
* Bytes of the input stream and of highlighted lines are `Nat` values in
  `0..255`.  `fgetc` returns `int`, but the source stores it into a plain
  `char` and compares with `EOF`; on the signed-`char` hosts the project
  targets (x86-64 gcc), the byte `0xFF` therefore compares equal to `EOF`
  and every read loop stops at it.  The model reproduces this: each read
  loop stops at end of input or at a `255` byte.
* The pixel matrix `Ctx.rows` stores 4 bytes per pixel; the source indexes
  bytes as `(pixel_x * COL_SZ + k)`.  The model keeps one `Color` (4 bytes)
  per pixel coordinate, which is the same injective layout.
* Machine integers are modelled as `Nat`; the relevant quantities (cursor,
  dimensions, pixel coordinates) are far below `2^32` so no wraparound is
  reachable, and all C loops count upward with non-negative bounds.
* Out-of-bounds array reads (palette index beyond `PALETTE_SZ`, a colour
  marker truncated by the end of the line buffer) are undefined behaviour
  in the C source; the corresponding model functions return `none` there.
* The font asset `fonts/main_font.h` is not part of the sources examined.
  Modelled from the spec: the font boundary provides the two constants
  `glyph_width`/`glyph_height` (Cozette, 6x13) and a read-only packed table;
  the table is a parameter `font : Nat → Nat` of every rendering function,
  so every theorem holds for an arbitrary table.
-/

namespace C2png

/-! ### Configuration constants (macros at the top of main.c) -/

def MIN_W : Nat := 70

def MIN_H : Nat := 0

def MARGIN : Nat := 10

def LINE_SPACING : Nat := 1

def BORDER_SZ : Nat := 2

def TAB_SZ : Nat := 4

def COL_SZ : Nat := 4

/-- Modelled from the spec: `glyph_width` of the external font asset
(`FONT_W` in fonts/main_font.h, Cozette). -/
def FONT_W : Nat := 6

/-- Modelled from the spec: `glyph_height` of the external font asset
(`FONT_H` in fonts/main_font.h, Cozette). -/
def FONT_H : Nat := 13

/-! ### Colours and the palette -/

/-- `Color`: four unsigned 8-bit channels. -/
structure Color where
  r : Nat
  g : Nat
  b : Nat
  a : Nat
deriving DecidableEq, Repr

/-- The `COL(RGB, A)` macro. -/
def COL (rgb a : Nat) : Color :=
  { r := (rgb >>> 16) % 256, g := (rgb >>> 8) % 256, b := rgb % 256, a := a % 256 }

/-- `EPaletteIndexes` values. -/
def COL_DEFAULT : Nat := 0

def COL_PREPROC : Nat := 1

def COL_TYPES : Nat := 2

def COL_KWRDS : Nat := 3

def COL_NUMBER : Nat := 4

def COL_STRING : Nat := 5

def COL_COMMENT : Nat := 6

def COL_FUNC_CALL : Nat := 7

def COL_SYMBOL : Nat := 8

def COL_BACK : Nat := 9

def COL_BORDER : Nat := 10

def PALETTE_SZ : Nat := 11

/-- The palette filled in by `ctx_init`.  `COL_FUNC_CALL` and `COL_SYMBOL`
alias `COL_DEFAULT`, as in the source.  Indices `≥ PALETTE_SZ` are never
read under defined behaviour (reads are guarded in the decoder model); the
catch-all arm is arbitrary. -/
def palette : Nat → Color
  | 0 => COL 0xFFFFFF 255
  | 1 => COL 0xFF6740 255
  | 2 => COL 0x79A8FF 255
  | 3 => COL 0xFF6F9F 255
  | 4 => COL 0x88CA9F 255
  | 5 => COL 0x00D3D0 255
  | 6 => COL 0x989898 255
  | 7 => COL 0xFFFFFF 255
  | 8 => COL 0xFFFFFF 255
  | 9 => COL 0x050505 255
  | 10 => COL 0x222222 255
  | _ => COL 0 0

/-! ### The canvas and the context -/

/-- The pixel matrix: colour at pixel column / pixel row. -/
abbrev Cv := Nat → Nat → Color

/-- Contents of freshly `malloc`ed (uninitialised) pixel memory, one fixed
arbitrary value. -/
def uninit : Color := { r := 0, g := 0, b := 0, a := 0 }

/-- Write one RGBA pixel (the four consecutive byte stores of the source). -/
def setPx (cv : Cv) (x y : Nat) (c : Color) : Cv :=
  fun px py => if px = x ∧ py = y then c else cv px py

/-- The `Ctx` structure of main.c (the palette is the global `palette`
above, and `rows` is the pixel matrix `pixels`). -/
structure Ctx where
  x : Nat
  y : Nat
  w : Nat
  h : Nat
  wPx : Nat
  hPx : Nat
  pixels : Cv

/-! ### Dimension resolution (`get_file_dimensions`, lines 146-174) -/

/-- The scanning loop of `get_file_dimensions`: per byte, newline resets
the column and bumps the row, anything else bumps the column; `w`/`h` track
the running maxima.  A `255` byte compares equal to `EOF` and stops the
loop. -/
def dimsLoop : List Nat → Nat → Nat → Nat → Nat → Nat × Nat
  | [], _x, _y, w, h => (w, h)
  | c :: rest, x, y, w, h =>
    if c = 255 then (w, h)
    else
      let x' := if c = 10 then 0 else x + 1
      let y' := if c = 10 then y + 1 else y
      dimsLoop rest x' y' (max w x') (max h y')

/-- `get_file_dimensions`, including the `ctx_init` presets
`ctx->w = MIN_W; ctx->h = MIN_H` that the loop starts from. -/
def get_file_dimensions (content : List Nat) : Nat × Nat :=
  dimsLoop content 0 0 MIN_W MIN_H

/-! Spec-side dimension contract (spec section 4.1): `width` is the maximum
number of characters on any single line (not counting the newline), floored
at the minimum width; `height` is the number of newline characters. -/

/-- Spec-side: the lines of a stream, split at newline bytes; the material
after the last newline is the final (possibly empty) line. -/
def linesOf : List Nat → List (List Nat)
  | [] => [[]]
  | c :: rest =>
    if c = 10 then [] :: linesOf rest
    else
      match linesOf rest with
      | [] => [[c]]
      | l :: ls => (c :: l) :: ls

/-- Maximum length over a list of lines. -/
def maxLens : List (List Nat) → Nat
  | [] => 0
  | l :: ls => max l.length (maxLens ls)

/-- Spec-side width: maximum line length, floored at `MIN_W`. -/
def specWidth (content : List Nat) : Nat :=
  max MIN_W (maxLens (linesOf content))

/-- Spec-side height: the number of newline characters. -/
def specHeight (content : List Nat) : Nat :=
  content.count 10

/-- Maximum column value attained by the scanning loop over the remaining
input, starting from column `x`. -/
def segMax : Nat → List Nat → Nat
  | _x, [] => 0
  | x, c :: rest =>
    if c = 10 then segMax 0 rest else max (x + 1) (segMax (x + 1) rest)

/-- Helper for relating `segMax` to line lengths: the spec maximum where the
first line is extended by `x` already-read characters. -/
def maxLensFrom (x : Nat) : List (List Nat) → Nat
  | [] => x
  | f :: r => max (x + f.length) (maxLens r)

/-! ### Pixel conversion and canvas allocation (`ctx_init`, lines 180-220) -/

/-- `CHAR_X_TO_PX`: character column to pixel column. -/
def CHAR_X_TO_PX (x : Nat) : Nat := MARGIN + x * FONT_W

/-- `CHAR_Y_TO_PX`: character row to pixel row. -/
def CHAR_Y_TO_PX (y : Nat) : Nat := MARGIN + y * (FONT_H + LINE_SPACING)

/-- `ctx->w_px = MARGIN + ctx->w * FONT_W + MARGIN`. -/
def widthPx (w : Nat) : Nat := MARGIN + w * FONT_W + MARGIN

/-- `ctx->h_px = MARGIN + ctx->h * (FONT_H + LINE_SPACING) + MARGIN`. -/
def heightPx (h : Nat) : Nat := MARGIN + h * (FONT_H + LINE_SPACING) + MARGIN

/-- Bytes of one allocated row: `ctx->w_px * sizeof(uint8_t) * COL_SZ`. -/
def rowBytes (wpx : Nat) : Nat := wpx * 1 * COL_SZ

/-- The allocation loop of `ctx_init`: one row buffer per pixel row. -/
def allocLoop (wpx : Nat) : Nat → Nat
  | 0 => 0
  | n + 1 => rowBytes wpx + allocLoop wpx n

/-- Total pixel-buffer bytes allocated for character dimensions `(wc, hc)`. -/
def allocBytes (wc hc : Nat) : Nat := allocLoop (widthPx wc) (heightPx hc)

/-- `ctx_init`: presets, dimension scan, pixel extents, fresh pixel matrix
(`malloc` contents modelled by the fixed `uninit` value). -/
def ctx_init (content : List Nat) : Ctx :=
  let d := get_file_dimensions content
  { x := 0, y := 0, w := d.1, h := d.2,
    wPx := widthPx d.1, hPx := heightPx d.2,
    pixels := fun _ _ => uninit }

/-! ### Glyph compositing (`get_font_bit`, `putchar2png`, lines 242-303) -/

/-- `get_font_bit`: bit `(x, y)` of the glyph for character code `c` in the
packed font table (one byte per glyph row, high bit first). -/
def get_font_bit (font : Nat → Nat) (c x y : Nat) : Bool :=
  font (c * FONT_H + y) &&& (0x80 >>> x) ≠ 0

/-- Inner (`fx`) loop of `putchar2png`: remaining count `n`, writing pixel
`(xB + fx, yPx)` with `fg`/`bg` according to the font bit. -/
def glyphRowLoop (font : Nat → Nat) (c xB yPx fy : Nat) (fg bg : Color) :
    Nat → Nat → Cv → Cv
  | _fx, 0, cv => cv
  | fx, n + 1, cv =>
    glyphRowLoop font c xB yPx fy fg bg (fx + 1) n
      (setPx cv (xB + fx) yPx (if get_font_bit font c fx fy then fg else bg))

/-- Outer (`fy`) loop of `putchar2png`. -/
def glyphLoop (font : Nat → Nat) (c xB yB : Nat) (fg bg : Color) :
    Nat → Nat → Cv → Cv
  | _fy, 0, cv => cv
  | fy, n + 1, cv =>
    glyphLoop font c xB yB fg bg (fy + 1) n
      (glyphRowLoop font c xB (yB + fy) fy fg bg 0 FONT_W cv)

/-- The default branch of `putchar2png`: stencil the glyph bitmap at the
cursor and advance one column. -/
def putcharGlyph (font : Nat → Nat) (ctx : Ctx) (c : Nat) (fg bg : Color) : Ctx :=
  { ctx with
    pixels := glyphLoop font c (CHAR_X_TO_PX ctx.x) (CHAR_Y_TO_PX ctx.y) fg bg 0 FONT_H ctx.pixels,
    x := ctx.x + 1 }

/-- The tab branch of `putchar2png`: `TAB_SZ` recursive calls with a space;
a space always takes the default branch, so the recursion is unfolded to
`putcharGlyph` with character 32. -/
def tabLoop (font : Nat → Nat) (fg bg : Color) : Nat → Ctx → Ctx
  | 0, ctx => ctx
  | n + 1, ctx => tabLoop font fg bg n (putcharGlyph font ctx 32 fg bg)

/-- `putchar2png`: newline moves the cursor, tab expands to `TAB_SZ`
spaces, anything else draws its glyph. -/
def putchar2png (font : Nat → Nat) (ctx : Ctx) (c : Nat) (fg bg : Color) : Ctx :=
  if c = 10 then { ctx with y := ctx.y + 1, x := 0 }
  else if c = 9 then tabLoop font fg bg TAB_SZ ctx
  else putcharGlyph font ctx c fg bg

/-! ### The highlight decoder (`print2png`, lines 309-340) -/

/-- The scanning loop of `print2png`.  The loop stops at a NUL byte or at a
`255` byte (`*s != EOF` with a signed `char`).  At the `0x1B` sentinel the
source reads the next two bytes as palette indices and skips a fourth
terminator byte without any check; reading past the end of the line buffer
or indexing `ctx->palette` outside `PALETTE_SZ` is undefined behaviour,
modelled as `none`.  Returns the context and the final active colours. -/
def printLoop (font : Nat → Nat) : Ctx → Color → Color → List Nat → Option (Ctx × Color × Color)
  | ctx, fg, bg, [] => some (ctx, fg, bg)
  | ctx, fg, bg, c :: s =>
    if c = 0 then some (ctx, fg, bg)
    else if c = 255 then some (ctx, fg, bg)
    else if c = 27 then
      match s with
      | fgi :: bgi :: _term :: rest =>
        if fgi < PALETTE_SZ ∧ bgi < PALETTE_SZ then
          printLoop font ctx (palette fgi) (palette bgi) rest
        else none
      | _ => none
    else printLoop font (putchar2png font ctx c fg bg) fg bg s

/-- `print2png`: decode one highlighted line, starting from the default
foreground over the background colour. -/
def print2png (font : Nat → Nat) (ctx : Ctx) (s : List Nat) : Option (Ctx × Color × Color) :=
  printLoop font ctx (palette COL_DEFAULT) (palette COL_BACK) s

/-- The `print2png` loop as compiled with `DISABLE_SYNTAX_HIGHLIGHT`: the
four marker bytes are still consumed and skipped, but the palette is never
consulted and the colours never change. -/
def printLoopD (font : Nat → Nat) : Ctx → Color → Color → List Nat → Option Ctx
  | ctx, _fg, _bg, [] => some ctx
  | ctx, fg, bg, c :: s =>
    if c = 0 then some ctx
    else if c = 255 then some ctx
    else if c = 27 then
      match s with
      | _fgi :: _bgi :: _term :: rest => printLoopD font ctx fg bg rest
      | _ => none
    else printLoopD font (putchar2png font ctx c fg bg) fg bg s

/-- `print2png` of the `DISABLE_SYNTAX_HIGHLIGHT` build. -/
def print2pngD (font : Nat → Nat) (ctx : Ctx) (s : List Nat) : Option Ctx :=
  printLoopD font ctx (palette COL_DEFAULT) (palette COL_BACK) s

/-! Spec-side decoder contract (spec section 4.4): markers are consumed,
never rendered; every other byte is forwarded to the compositor with the
colours selected by the most recent preceding marker. -/

/-- Spec-side: the glyph events of a highlighted line — each plain byte
paired with the active colours; marker bytes (sentinel, two indices,
terminator) produce no event and update the active colours. -/
def specEvents : Color → Color → List Nat → List (Nat × Color × Color)
  | _fg, _bg, [] => []
  | fg, bg, c :: s =>
    if c = 0 then []
    else if c = 27 then
      match s with
      | fgi :: bgi :: _term :: rest => specEvents (palette fgi) (palette bgi) rest
      | _ => []
    else (c, fg, bg) :: specEvents fg bg s

/-- Spec-side: the colours active after scanning a line. -/
def specCols : Color → Color → List Nat → Color × Color
  | fg, bg, [] => (fg, bg)
  | fg, bg, c :: s =>
    if c = 0 then (fg, bg)
    else if c = 27 then
      match s with
      | fgi :: bgi :: _term :: rest => specCols (palette fgi) (palette bgi) rest
      | _ => (fg, bg)
    else specCols fg bg s

/-- Spec-side: the glyph events when highlighting support is compiled out —
marker bytes are skipped and every plain byte keeps the initial colours. -/
def specEventsD (fg bg : Color) : List Nat → List (Nat × Color × Color)
  | [] => []
  | c :: s =>
    if c = 0 then []
    else if c = 27 then
      match s with
      | _fgi :: _bgi :: _term :: rest => specEventsD fg bg rest
      | _ => []
    else (c, fg, bg) :: specEventsD fg bg s

/-- A line is well formed when every `0x1B` sentinel is followed by two
in-range palette indices and a terminator byte inside the line. -/
def lineOk : List Nat → Bool
  | [] => true
  | c :: s =>
    if c = 0 then true
    else if c = 27 then
      match s with
      | fgi :: bgi :: _term :: rest =>
        decide (fgi < PALETTE_SZ) && decide (bgi < PALETTE_SZ) && lineOk rest
      | _ => false
    else lineOk s

/-- Replay a list of glyph events through the compositor. -/
def replay (font : Nat → Nat) : Ctx → List (Nat × Color × Color) → Ctx
  | ctx, [] => ctx
  | ctx, e :: es => replay font (putchar2png font ctx e.1 e.2.1 e.2.2) es

/-! ### The per-file render pass (`file2png`, lines 346-403) -/

/-- The read loop of `file2png`.  `buf` is the accumulated line buffer.
Each iteration asserts `line_buf_pos < line_buf_sz` (`ctx->w + 1`); an
assertion failure aborts the run (`none`).  A newline terminates the
buffer, highlights it (`hl` is the external `highlight_line`), prints it,
prints the newline, and resets the buffer.  A `255` byte compares equal to
`EOF` and ends the loop; whatever is left in `buf` is never printed. -/
def file2pngGo (font : Nat → Nat) (hl : List Nat → List Nat) :
    Ctx → List Nat → List Nat → Option Ctx
  | ctx, _buf, [] => some ctx
  | ctx, buf, c :: rest =>
    if c = 255 then some ctx
    else if buf.length < ctx.w + 1 then
      if c = 10 then
        match print2png font ctx (hl buf) with
        | none => none
        | some r =>
          file2pngGo font hl
            (putchar2png font r.1 10 (palette COL_DEFAULT) (palette COL_BACK)) [] rest
      else file2pngGo font hl ctx (buf ++ [c]) rest
    else none

/-- `file2png`: render every newline-terminated line of the input. -/
def file2png (font : Nat → Nat) (hl : List Nat → List Nat) (ctx : Ctx)
    (content : List Nat) : Option Ctx :=
  file2pngGo font hl ctx [] content

/-- Spec-side: the input truncated just after its last newline byte. -/
def truncAtLastNl : List Nat → List Nat
  | [] => []
  | c :: rest =>
    if 10 ∈ rest then c :: truncAtLastNl rest
    else if c = 10 then [10] else []

/-- Spec-side: the trailing characters after the last newline byte. -/
def fragAfter : List Nat → List Nat
  | [] => []
  | c :: rest =>
    if 10 ∈ rest then fragAfter rest
    else if c = 10 then rest else c :: rest

/-! ### Rectangles and the border (`draw_rect`, `draw_border`, lines 411-445) -/

/-- Inner (`cur_x`) loop of `draw_rect`: `n` pixels of row `y` starting at
column `x`. -/
def rectRowLoop (col : Color) (y : Nat) : Nat → Nat → Cv → Cv
  | _x, 0, cv => cv
  | x, n + 1, cv => rectRowLoop col y (x + 1) n (setPx cv x y col)

/-- Outer (`cur_y`) loop of `draw_rect`. -/
def rectLoop (col : Color) (x w : Nat) : Nat → Nat → Cv → Cv
  | _y, 0, cv => cv
  | y, n + 1, cv => rectLoop col x w (y + 1) n (rectRowLoop col y x w cv)

/-- `draw_rect ctx x y w h c`. -/
def draw_rect (ctx : Ctx) (x y w h : Nat) (c : Color) : Ctx :=
  { ctx with pixels := rectLoop c x w y h ctx.pixels }

/-- `draw_border`: the four `BORDER_SZ`-thick edge rectangles, in source
order (top, left, bottom, right). -/
def draw_border (ctx : Ctx) : Ctx :=
  let c1 := draw_rect ctx 0 0 ctx.wPx BORDER_SZ (palette COL_BORDER)
  let c2 := draw_rect c1 0 0 BORDER_SZ c1.hPx (palette COL_BORDER)
  let c3 := draw_rect c2 0 (c2.hPx - BORDER_SZ) c2.wPx BORDER_SZ (palette COL_BORDER)
  draw_rect c3 (c3.wPx - BORDER_SZ) 0 BORDER_SZ c3.hPx (palette COL_BORDER)

/-! ### The whole pipeline (`main`, lines 491-528) -/

/-- The pipeline of `main` on an already-opened input: `ctx_init`, clear
with the background colour, `file2png`, `draw_border`.  (`png2file` only
serialises `rows`/`w_px`/`h_px`, which this `Ctx` is.) -/
def render (font : Nat → Nat) (hl : List Nat → List Nat) (content : List Nat) : Option Ctx :=
  let ctx0 := ctx_init content
  let ctx1 := draw_rect ctx0 0 0 ctx0.wPx ctx0.hPx (palette COL_BACK)
  Option.map draw_border (file2png font hl ctx1 content)

/-! ### Concrete sample values used by witnesses and counterexamples -/

/-- An arbitrary concrete font table (all glyph bits clear). -/
def font0 : Nat → Nat := fun _ => 0

/-- The identity highlighter (a classifier that inserts no markers). -/
def hl0 : List Nat → List Nat := fun s => s

/-- The context produced for an empty input: 70x0 characters. -/
def ctxS : Ctx := ctx_init []

/-- C1 failing input: one line of 18 tab characters.  The scan counts 18
cells (width resolves to `MIN_W = 70`), but the compositor expands the tabs
to 72 space glyphs, so column 71 writes pixels `436..441` while the row is
only `widthPx 70 = 440` pixels wide. -/
def c1input : List Nat := List.replicate 18 9 ++ [10]

/-- C7 counterexample line: a marker selecting (string, background), then
the byte `0xFF`, then a marker selecting (default, background), then `a`.
The decoder stops at the `0xFF` byte (`*s != EOF` with signed `char`). -/
def sC7 : List Nat := [27, 5, 9, 0, 255, 27, 0, 9, 0, 97]

/-- C10 counterexample input: one empty line followed by 71 trailing `a`
characters with no final newline.  The trailing fragment is never
composited but still widens the dimension scan beyond `MIN_W`. -/
def c10input : List Nat := 10 :: List.replicate 71 97

/-- C7 witness line: a marker selecting (string, background), the glyph
`a`, a marker selecting (default, background), the glyph `b`. -/
def sW7 : List Nat := [27, 5, 9, 0, 97, 27, 0, 9, 0, 98]

/-! ## Theorems -/

theorem dimsLoop_spec (rest : List Nat) :
    ∀ x y w h : Nat, 255 ∉ rest → y ≤ h →
      dimsLoop rest x y w h = (max w (segMax x rest), max h (y + rest.count 10)) := by
  induction rest with
  | nil =>
    intro x y w h _ hy
    simp [dimsLoop, segMax]
    omega
  | cons c rest ih =>
    intro x y w h h255 hy
    simp only [List.mem_cons, not_or] at h255
    obtain ⟨hc255, hrest⟩ := h255
    have hc : ¬c = 255 := fun e => hc255 e.symm
    by_cases h10 : c = 10
    · subst h10
      rw [show dimsLoop (10 :: rest) x y w h = dimsLoop rest 0 (y + 1) (max w 0) (max h (y + 1))
          from by simp [dimsLoop]]
      rw [ih 0 (y + 1) (max w 0) (max h (y + 1)) hrest (by omega)]
      have hseg : segMax x (10 :: rest) = segMax 0 rest := by simp [segMax]
      have hcnt : (10 :: rest).count 10 = rest.count 10 + 1 := by simp
      rw [hseg, hcnt, Prod.mk.injEq]
      constructor
      · omega
      · omega
    · rw [show dimsLoop (c :: rest) x y w h
          = dimsLoop rest (x + 1) y (max w (x + 1)) (max h y) from by
        simp [dimsLoop, hc, h10]]
      rw [ih (x + 1) y (max w (x + 1)) (max h y) hrest (by omega)]
      have hseg : segMax x (c :: rest) = max (x + 1) (segMax (x + 1) rest) := by
        simp [segMax, h10]
      have hcnt : (c :: rest).count 10 = rest.count 10 := by
        simp [List.count_cons, h10]
      rw [hseg, hcnt, Prod.mk.injEq]
      constructor
      · omega
      · omega

theorem linesOf_ne_nil (l : List Nat) : linesOf l ≠ [] := by
  cases l with
  | nil => simp [linesOf]
  | cons c rest =>
    by_cases h : c = 10
    · simp [linesOf, h]
    · simp only [linesOf, if_neg h]
      cases linesOf rest <;> simp

theorem maxLensFrom_zero (ls : List (List Nat)) (h : ls ≠ []) :
    maxLensFrom 0 ls = maxLens ls := by
  cases ls with
  | nil => exact absurd rfl h
  | cons f r => simp [maxLensFrom, maxLens]

theorem segMax_linesOf (l : List Nat) :
    ∀ x : Nat, max x (segMax x l) = maxLensFrom x (linesOf l) := by
  induction l with
  | nil =>
    intro x
    simp [segMax, linesOf, maxLensFrom, maxLens]
  | cons c rest ih =>
    intro x
    by_cases h : c = 10
    · subst h
      have h0 : segMax 0 rest = maxLens (linesOf rest) := by
        have h1 := ih 0
        rw [maxLensFrom_zero (linesOf rest) (linesOf_ne_nil rest)] at h1
        omega
      have hseg : segMax x (10 :: rest) = segMax 0 rest := by simp [segMax]
      have hlin : linesOf (10 :: rest) = [] :: linesOf rest := by simp [linesOf]
      rw [hseg, hlin, h0]
      show max x (maxLens (linesOf rest)) = max (x + List.length []) (maxLens (linesOf rest))
      simp
    · obtain ⟨f, r, hfr⟩ : ∃ f r, linesOf rest = f :: r := by
        cases hx : linesOf rest with
        | nil => exact absurd hx (linesOf_ne_nil rest)
        | cons f r => exact ⟨f, r, rfl⟩
      have hstep : max x (segMax x (c :: rest)) = max (x + 1) (segMax (x + 1) rest) := by
        simp only [segMax, if_neg h]
        omega
      rw [hstep, ih (x + 1)]
      simp only [linesOf, if_neg h, hfr, maxLensFrom, List.length_cons]
      omega

/-- **C2** (counterexample).  The claim promises the line-maximum width and
the newline count for *every* input stream, but `get_file_dimensions` reads
`fgetc` results through a plain `char`, so the byte `0xFF` compares equal
to `EOF` and stops the scan: on `[0xFF, '\n']` the resolver reports zero
newlines while the stream contains one. -/
theorem c2_counterexample :
    get_file_dimensions [255, 10] ≠ (specWidth [255, 10], specHeight [255, 10]) := by
  decide

/-- **C2** (amended: restricted to streams containing no `0xFF` byte, which
the `char`/`EOF` conflation turns into a premature end of stream).  The
dimension resolver returns exactly the spec contract: width is the maximum
line length (the unterminated final line included) floored at `MIN_W`, and
height is the number of newline bytes; no trailing newline is required. -/
theorem c2_dimension_resolver (content : List Nat) (h255 : 255 ∉ content) :
    get_file_dimensions content = (specWidth content, specHeight content) := by
  unfold get_file_dimensions specWidth specHeight
  rw [dimsLoop_spec content 0 0 MIN_W MIN_H h255 (le_refl MIN_H)]
  have h1 : segMax 0 content = maxLens (linesOf content) := by
    have h2 := segMax_linesOf content 0
    rw [maxLensFrom_zero _ (linesOf_ne_nil content)] at h2
    omega
  rw [h1, Prod.mk.injEq]
  constructor
  · rfl
  · show max MIN_H (0 + content.count 10) = content.count 10
    simp [MIN_H]

theorem c2_dimension_resolver_witness :
    (255 : Nat) ∉ [97, 10, 98, 98] ∧
      get_file_dimensions [97, 10, 98, 98] = (specWidth [97, 10, 98, 98], specHeight [97, 10, 98, 98]) :=
  ⟨by decide, c2_dimension_resolver [97, 10, 98, 98] (by decide)⟩

theorem allocLoop_eq (wpx : Nat) : ∀ n, allocLoop wpx n = n * (wpx * COL_SZ) := by
  intro n
  induction n with
  | zero => simp [allocLoop]
  | succ n ih =>
    unfold allocLoop rowBytes
    rw [ih]
    ring

/-- **C3**.  The canvas pixel extents are
`width_px = 2*margin + width_chars*glyph_width` and
`height_px = 2*margin + height_chars*(glyph_height + line_spacing)`, and
the allocation loop of `ctx_init` reserves exactly
`width_px * height_px * 4` bytes — both functions of the two character
dimensions alone. -/
theorem c3_canvas_extents (wc hc : Nat) :
    widthPx wc = 2 * MARGIN + wc * FONT_W ∧
    heightPx hc = 2 * MARGIN + hc * (FONT_H + LINE_SPACING) ∧
    allocBytes wc hc = widthPx wc * heightPx hc * 4 := by
  refine ⟨?_, ?_, ?_⟩
  · unfold widthPx MARGIN
    omega
  · unfold heightPx MARGIN
    omega
  · unfold allocBytes
    rw [allocLoop_eq]
    unfold COL_SZ
    ring

/-- **C5**.  Rendering a single tab character is the same context
transformation — canvas and cursor alike — as rendering `TAB_SZ` space
characters in sequence with the same colours. -/
theorem c5_tab_equals_spaces (font : Nat → Nat) (ctx : Ctx) (fg bg : Color) :
    putchar2png font ctx 9 fg bg = (fun k => putchar2png font k 32 fg bg)^[TAB_SZ] ctx := by
  rfl

theorem rectRowLoop_get (col : Color) (y : Nat) :
    ∀ (n x : Nat) (cv : Cv) (px py : Nat),
      rectRowLoop col y x n cv px py
        = if py = y ∧ x ≤ px ∧ px < x + n then col else cv px py := by
  intro n
  induction n with
  | zero =>
    intro x cv px py
    rw [if_neg (by rintro ⟨h1, h2, h3⟩; omega)]
    rfl
  | succ n ih =>
    intro x cv px py
    show rectRowLoop col y (x + 1) n (setPx cv x y col) px py = _
    rw [ih]
    by_cases hin : py = y ∧ x + 1 ≤ px ∧ px < x + 1 + n
    · rw [if_pos hin, if_pos ⟨hin.1, by omega, by omega⟩]
    · rw [if_neg hin]
      unfold setPx
      by_cases hpt : px = x ∧ py = y
      · rw [if_pos hpt, if_pos ⟨hpt.2, by omega, by omega⟩]
      · have hreg : ¬(py = y ∧ x ≤ px ∧ px < x + (n + 1)) := by
          rintro ⟨h1, h2, h3⟩
          by_cases he : px = x
          · exact hpt ⟨he, h1⟩
          · exact hin ⟨h1, by omega, by omega⟩
        rw [if_neg hpt, if_neg hreg]

theorem rectLoop_get (col : Color) (x w : Nat) :
    ∀ (n y : Nat) (cv : Cv) (px py : Nat),
      rectLoop col x w y n cv px py
        = if x ≤ px ∧ px < x + w ∧ y ≤ py ∧ py < y + n then col else cv px py := by
  intro n
  induction n with
  | zero =>
    intro y cv px py
    rw [if_neg (by rintro ⟨h1, h2, h3, h4⟩; omega)]
    rfl
  | succ n ih =>
    intro y cv px py
    show rectLoop col x w (y + 1) n (rectRowLoop col y x w cv) px py = _
    rw [ih]
    by_cases hin : x ≤ px ∧ px < x + w ∧ y + 1 ≤ py ∧ py < y + 1 + n
    · rw [if_pos hin, if_pos ⟨hin.1, hin.2.1, by omega, by omega⟩]
    · rw [if_neg hin, rectRowLoop_get]
      by_cases hrow : py = y ∧ x ≤ px ∧ px < x + w
      · rw [if_pos hrow, if_pos ⟨hrow.2.1, hrow.2.2, by omega, by omega⟩]
      · have hreg : ¬(x ≤ px ∧ px < x + w ∧ y ≤ py ∧ py < y + (n + 1)) := by
          rintro ⟨h1, h2, h3, h4⟩
          by_cases he : py = y
          · exact hrow ⟨he, h1, h2⟩
          · exact hin ⟨h1, h2, by omega, by omega⟩
        rw [if_neg hrow, if_neg hreg]

theorem glyphRowLoop_get (font : Nat → Nat) (c xB yPx fy : Nat) (fg bg : Color) :
    ∀ (n fx : Nat) (cv : Cv) (px py : Nat),
      glyphRowLoop font c xB yPx fy fg bg fx n cv px py
        = if py = yPx ∧ xB + fx ≤ px ∧ px < xB + fx + n
          then (if get_font_bit font c (px - xB) fy then fg else bg)
          else cv px py := by
  intro n
  induction n with
  | zero =>
    intro fx cv px py
    rw [if_neg (by rintro ⟨h1, h2, h3⟩; omega)]
    rfl
  | succ n ih =>
    intro fx cv px py
    show glyphRowLoop font c xB yPx fy fg bg (fx + 1) n
        (setPx cv (xB + fx) yPx (if get_font_bit font c fx fy then fg else bg)) px py = _
    rw [ih]
    by_cases hin : py = yPx ∧ xB + (fx + 1) ≤ px ∧ px < xB + (fx + 1) + n
    · have hreg : py = yPx ∧ xB + fx ≤ px ∧ px < xB + fx + (n + 1) :=
        ⟨hin.1, by omega, by omega⟩
      rw [if_pos hin, if_pos hreg]
    · rw [if_neg hin]
      unfold setPx
      by_cases hpt : px = xB + fx ∧ py = yPx
      · have hreg : py = yPx ∧ xB + fx ≤ px ∧ px < xB + fx + (n + 1) :=
          ⟨hpt.2, by omega, by omega⟩
        rw [if_pos hpt, if_pos hreg]
        have hsub : px - xB = fx := by omega
        rw [hsub]
      · have hreg : ¬(py = yPx ∧ xB + fx ≤ px ∧ px < xB + fx + (n + 1)) := by
          rintro ⟨h1, h2, h3⟩
          by_cases he : px = xB + fx
          · exact hpt ⟨he, h1⟩
          · exact hin ⟨h1, by omega, by omega⟩
        rw [if_neg hpt, if_neg hreg]

theorem glyphLoop_get (font : Nat → Nat) (c xB yB : Nat) (fg bg : Color) :
    ∀ (n fy : Nat) (cv : Cv) (px py : Nat),
      glyphLoop font c xB yB fg bg fy n cv px py
        = if xB ≤ px ∧ px < xB + FONT_W ∧ yB + fy ≤ py ∧ py < yB + fy + n
          then (if get_font_bit font c (px - xB) (py - yB) then fg else bg)
          else cv px py := by
  intro n
  induction n with
  | zero =>
    intro fy cv px py
    rw [if_neg (by rintro ⟨h1, h2, h3, h4⟩; omega)]
    rfl
  | succ n ih =>
    intro fy cv px py
    show glyphLoop font c xB yB fg bg (fy + 1) n
        (glyphRowLoop font c xB (yB + fy) fy fg bg 0 FONT_W cv) px py = _
    rw [ih]
    by_cases hin : xB ≤ px ∧ px < xB + FONT_W ∧ yB + (fy + 1) ≤ py ∧ py < yB + (fy + 1) + n
    · have hreg : xB ≤ px ∧ px < xB + FONT_W ∧ yB + fy ≤ py ∧ py < yB + fy + (n + 1) :=
        ⟨hin.1, hin.2.1, by omega, by omega⟩
      rw [if_pos hin, if_pos hreg]
    · rw [if_neg hin, glyphRowLoop_get]
      by_cases hrow : py = yB + fy ∧ xB + 0 ≤ px ∧ px < xB + 0 + FONT_W
      · have hreg : xB ≤ px ∧ px < xB + FONT_W ∧ yB + fy ≤ py ∧ py < yB + fy + (n + 1) :=
          ⟨by omega, by omega, by omega, by omega⟩
        rw [if_pos hrow, if_pos hreg]
        have hsub : py - yB = fy := by omega
        rw [hsub]
      · have hreg : ¬(xB ≤ px ∧ px < xB + FONT_W ∧ yB + fy ≤ py ∧ py < yB + fy + (n + 1)) := by
          rintro ⟨h1, h2, h3, h4⟩
          by_cases he : py = yB + fy
          · exact hrow ⟨he, by omega, by omega⟩
          · exact hin ⟨h1, h2, by omega, by omega⟩
        rw [if_neg hrow, if_neg hreg]

/-- **C4**.  For a character other than newline and tab, `putchar2png`
writes, at every bit position `(fx, fy)` of the glyph bitmap, the
foreground colour if the font bit is set and the background colour
otherwise, at pixel `(CHAR_X_TO_PX col + fx, CHAR_Y_TO_PX row + fy)`, and
advances the cursor by exactly one column leaving the row unchanged. -/
theorem c4_glyph_compositing (font : Nat → Nat) (ctx : Ctx) (c : Nat) (fg bg : Color)
    (fx fy : Nat) (hc10 : c ≠ 10) (hc9 : c ≠ 9) (hfx : fx < FONT_W) (hfy : fy < FONT_H) :
    (putchar2png font ctx c fg bg).pixels (CHAR_X_TO_PX ctx.x + fx) (CHAR_Y_TO_PX ctx.y + fy)
        = (if get_font_bit font c fx fy then fg else bg) ∧
      (putchar2png font ctx c fg bg).x = ctx.x + 1 ∧
      (putchar2png font ctx c fg bg).y = ctx.y := by
  unfold putchar2png
  rw [if_neg hc10, if_neg hc9]
  refine ⟨?_, rfl, rfl⟩
  show glyphLoop font c (CHAR_X_TO_PX ctx.x) (CHAR_Y_TO_PX ctx.y) fg bg 0 FONT_H ctx.pixels
      (CHAR_X_TO_PX ctx.x + fx) (CHAR_Y_TO_PX ctx.y + fy) = _
  rw [glyphLoop_get]
  have hreg : CHAR_X_TO_PX ctx.x ≤ CHAR_X_TO_PX ctx.x + fx ∧
      CHAR_X_TO_PX ctx.x + fx < CHAR_X_TO_PX ctx.x + FONT_W ∧
      CHAR_Y_TO_PX ctx.y + 0 ≤ CHAR_Y_TO_PX ctx.y + fy ∧
      CHAR_Y_TO_PX ctx.y + fy < CHAR_Y_TO_PX ctx.y + 0 + FONT_H :=
    ⟨by omega, by omega, by omega, by omega⟩
  rw [if_pos hreg]
  have h1 : CHAR_X_TO_PX ctx.x + fx - CHAR_X_TO_PX ctx.x = fx := by omega
  have h2 : CHAR_Y_TO_PX ctx.y + fy - CHAR_Y_TO_PX ctx.y = fy := by omega
  rw [h1, h2]

theorem c4_glyph_compositing_witness :
    (65 : Nat) ≠ 10 ∧ (65 : Nat) ≠ 9 ∧ 0 < FONT_W ∧ 0 < FONT_H ∧
      ((putchar2png font0 ctxS 65 (palette 0) (palette 9)).pixels
            (CHAR_X_TO_PX ctxS.x + 0) (CHAR_Y_TO_PX ctxS.y + 0)
          = (if get_font_bit font0 65 0 0 then palette 0 else palette 9) ∧
        (putchar2png font0 ctxS 65 (palette 0) (palette 9)).x = ctxS.x + 1 ∧
        (putchar2png font0 ctxS 65 (palette 0) (palette 9)).y = ctxS.y) :=
  ⟨by decide, by decide, by decide, by decide,
    c4_glyph_compositing font0 ctxS 65 (palette 0) (palette 9) 0 0
      (by decide) (by decide) (by decide) (by decide)⟩

/-- **C9**.  For a canvas of at least `2*BORDER_SZ` pixels in each
dimension, after `draw_border` every pixel within `BORDER_SZ` of any edge
equals the border colour, whatever the canvas held before: the four edge
rectangles unconditionally overwrite those bands. -/
theorem c9_border_band (ctx : Ctx) (px py : Nat)
    (hw : 2 * BORDER_SZ ≤ ctx.wPx) (hh : 2 * BORDER_SZ ≤ ctx.hPx)
    (hpx : px < ctx.wPx) (hpy : py < ctx.hPx)
    (hband : px < BORDER_SZ ∨ ctx.wPx - BORDER_SZ ≤ px ∨
      py < BORDER_SZ ∨ ctx.hPx - BORDER_SZ ≤ py) :
    (draw_border ctx).pixels px py = palette COL_BORDER := by
  show rectLoop (palette COL_BORDER) (ctx.wPx - BORDER_SZ) BORDER_SZ 0 ctx.hPx
      (rectLoop (palette COL_BORDER) 0 ctx.wPx (ctx.hPx - BORDER_SZ) BORDER_SZ
        (rectLoop (palette COL_BORDER) 0 BORDER_SZ 0 ctx.hPx
          (rectLoop (palette COL_BORDER) 0 ctx.wPx 0 BORDER_SZ ctx.pixels))) px py
      = palette COL_BORDER
  rw [rectLoop_get, rectLoop_get, rectLoop_get, rectLoop_get]
  rcases hband with hb | hb | hb | hb <;>
    split_ifs <;> first | rfl | (exfalso; omega)

theorem c9_border_band_witness :
    2 * BORDER_SZ ≤ ctxS.wPx ∧ 2 * BORDER_SZ ≤ ctxS.hPx ∧ (0 : Nat) < ctxS.wPx ∧
      (5 : Nat) < ctxS.hPx ∧
      ((0 : Nat) < BORDER_SZ ∨ ctxS.wPx - BORDER_SZ ≤ 0 ∨ (5 : Nat) < BORDER_SZ ∨
        ctxS.hPx - BORDER_SZ ≤ 5) ∧
      (draw_border ctxS).pixels 0 5 = palette COL_BORDER :=
  ⟨by decide, by decide, by decide, by decide, Or.inl (by decide),
    c9_border_band ctxS 0 5 (by decide) (by decide) (by decide) (by decide)
      (Or.inl (by decide))⟩

theorem putcharGlyph_w (font : Nat → Nat) (ctx : Ctx) (c : Nat) (fg bg : Color) :
    (putcharGlyph font ctx c fg bg).w = ctx.w := rfl

theorem tabLoop_w (font : Nat → Nat) (fg bg : Color) :
    ∀ (n : Nat) (ctx : Ctx), (tabLoop font fg bg n ctx).w = ctx.w := by
  intro n
  induction n with
  | zero => intro ctx; rfl
  | succ n ih =>
    intro ctx
    show (tabLoop font fg bg n (putcharGlyph font ctx 32 fg bg)).w = ctx.w
    rw [ih, putcharGlyph_w]

theorem putchar2png_w (font : Nat → Nat) (ctx : Ctx) (c : Nat) (fg bg : Color) :
    (putchar2png font ctx c fg bg).w = ctx.w := by
  unfold putchar2png
  split_ifs
  · rfl
  · exact tabLoop_w font fg bg TAB_SZ ctx
  · rfl

theorem printLoop_cons (font : Nat → Nat) (ctx : Ctx) (fg bg : Color) (c : Nat) (s : List Nat) :
    printLoop font ctx fg bg (c :: s)
      = if c = 0 then some (ctx, fg, bg)
        else if c = 255 then some (ctx, fg, bg)
        else if c = 27 then
          match s with
          | fgi :: bgi :: _term :: rest =>
            if fgi < PALETTE_SZ ∧ bgi < PALETTE_SZ then
              printLoop font ctx (palette fgi) (palette bgi) rest
            else none
          | _ => none
        else printLoop font (putchar2png font ctx c fg bg) fg bg s := by
  rw [printLoop.eq_def]

theorem printLoopD_cons (font : Nat → Nat) (ctx : Ctx) (fg bg : Color) (c : Nat) (s : List Nat) :
    printLoopD font ctx fg bg (c :: s)
      = if c = 0 then some ctx
        else if c = 255 then some ctx
        else if c = 27 then
          match s with
          | _fgi :: _bgi :: _term :: rest => printLoopD font ctx fg bg rest
          | _ => none
        else printLoopD font (putchar2png font ctx c fg bg) fg bg s := by
  rw [printLoopD.eq_def]

theorem lineOk_cons (c : Nat) (s : List Nat) :
    lineOk (c :: s)
      = if c = 0 then true
        else if c = 27 then
          match s with
          | fgi :: bgi :: _term :: rest =>
            decide (fgi < PALETTE_SZ) && decide (bgi < PALETTE_SZ) && lineOk rest
          | _ => false
        else lineOk s := by
  rw [lineOk.eq_def]

theorem specEvents_cons (fg bg : Color) (c : Nat) (s : List Nat) :
    specEvents fg bg (c :: s)
      = if c = 0 then []
        else if c = 27 then
          match s with
          | fgi :: bgi :: _term :: rest => specEvents (palette fgi) (palette bgi) rest
          | _ => []
        else (c, fg, bg) :: specEvents fg bg s := by
  rw [specEvents.eq_def]

theorem specCols_cons (fg bg : Color) (c : Nat) (s : List Nat) :
    specCols fg bg (c :: s)
      = if c = 0 then (fg, bg)
        else if c = 27 then
          match s with
          | fgi :: bgi :: _term :: rest => specCols (palette fgi) (palette bgi) rest
          | _ => (fg, bg)
        else specCols fg bg s := by
  rw [specCols.eq_def]

theorem specEventsD_cons (fg bg : Color) (c : Nat) (s : List Nat) :
    specEventsD fg bg (c :: s)
      = if c = 0 then []
        else if c = 27 then
          match s with
          | _fgi :: _bgi :: _term :: rest => specEventsD fg bg rest
          | _ => []
        else (c, fg, bg) :: specEventsD fg bg s := by
  rw [specEventsD.eq_def]

theorem printLoop_w (font : Nat → Nat) :
    ∀ (n : Nat) (s : List Nat), s.length ≤ n →
      ∀ (ctx : Ctx) (fg bg : Color) (r : Ctx × Color × Color),
        printLoop font ctx fg bg s = some r → r.1.w = ctx.w := by
  intro n
  induction n with
  | zero =>
    intro s hs ctx fg bg r h
    have hnil : s = [] := List.length_eq_zero.mp (by omega)
    subst hnil
    injection h with h2
    rw [← h2]
  | succ n ih =>
    intro s hs ctx fg bg r h
    cases s with
    | nil =>
      injection h with h2
      rw [← h2]
    | cons c s' =>
      rw [printLoop_cons] at h
      by_cases h0 : c = 0
      · rw [if_pos h0] at h
        injection h with h2
        rw [← h2]
      · rw [if_neg h0] at h
        by_cases h255 : c = 255
        · rw [if_pos h255] at h
          injection h with h2
          rw [← h2]
        · rw [if_neg h255] at h
          by_cases h27 : c = 27
          · rw [if_pos h27] at h
            cases s' with
            | nil => exact Option.noConfusion h
            | cons a t =>
              cases t with
              | nil => exact Option.noConfusion h
              | cons b t2 =>
                cases t2 with
                | nil => exact Option.noConfusion h
                | cons tm rest =>
                  have h' : (if a < PALETTE_SZ ∧ b < PALETTE_SZ then
                      printLoop font ctx (palette a) (palette b) rest else none) = some r := h
                  by_cases hpal : a < PALETTE_SZ ∧ b < PALETTE_SZ
                  · rw [if_pos hpal] at h'
                    exact ih rest (by simp at hs; omega) ctx (palette a) (palette b) r h'
                  · rw [if_neg hpal] at h'
                    exact Option.noConfusion h'
          · rw [if_neg h27] at h
            have hw := ih s' (by simp at hs; omega) (putchar2png font ctx c fg bg) fg bg r h
            rw [hw, putchar2png_w]

theorem printLoop_spec (font : Nat → Nat) :
    ∀ (n : Nat) (s : List Nat), s.length ≤ n → ∀ (ctx : Ctx) (fg bg : Color),
      lineOk s = true → 255 ∉ s →
      printLoop font ctx fg bg s
        = some (replay font ctx (specEvents fg bg s), specCols fg bg s) := by
  intro n
  induction n with
  | zero =>
    intro s hs ctx fg bg _hOk _h255
    have hnil : s = [] := List.length_eq_zero.mp (by omega)
    subst hnil
    rfl
  | succ n ih =>
    intro s hs ctx fg bg hOk h255
    cases s with
    | nil => rfl
    | cons c s' =>
      simp only [List.mem_cons, not_or] at h255
      obtain ⟨hc255, hs255⟩ := h255
      have hcne : ¬c = 255 := fun e => hc255 e.symm
      by_cases h0 : c = 0
      · subst h0
        rw [printLoop_cons, specEvents_cons, specCols_cons]
        rw [if_pos (rfl : (0 : Nat) = 0), if_pos (rfl : (0 : Nat) = 0),
          if_pos (rfl : (0 : Nat) = 0)]
        rfl
      · by_cases h27 : c = 27
        · subst h27
          cases s' with
          | nil => exact absurd hOk (by decide)
          | cons a t =>
            cases t with
            | nil => exact Bool.noConfusion (show false = true from hOk)
            | cons b t2 =>
              cases t2 with
              | nil => exact Bool.noConfusion (show false = true from hOk)
              | cons tm rest =>
                have hx : (decide (a < PALETTE_SZ) && decide (b < PALETTE_SZ)
                    && lineOk rest) = true := hOk
                simp only [Bool.and_eq_true, decide_eq_true_eq] at hx
                obtain ⟨⟨ha, hb⟩, hrest⟩ := hx
                have hpal : a < PALETTE_SZ ∧ b < PALETTE_SZ := ⟨ha, hb⟩
                have e1 : printLoop font ctx fg bg (27 :: a :: b :: tm :: rest)
                    = if a < PALETTE_SZ ∧ b < PALETTE_SZ then
                        printLoop font ctx (palette a) (palette b) rest
                      else none := rfl
                have e2 : specEvents fg bg (27 :: a :: b :: tm :: rest)
                    = specEvents (palette a) (palette b) rest := rfl
                have e3 : specCols fg bg (27 :: a :: b :: tm :: rest)
                    = specCols (palette a) (palette b) rest := rfl
                have h255rest : (255 : Nat) ∉ rest := by
                  simp only [List.mem_cons, not_or] at hs255
                  exact hs255.2.2.2
                rw [e1, if_pos hpal, e2, e3]
                exact ih rest (by simp at hs; omega) ctx (palette a) (palette b) hrest h255rest
        · have e1 : printLoop font ctx fg bg (c :: s')
              = printLoop font (putchar2png font ctx c fg bg) fg bg s' := by
            rw [printLoop_cons, if_neg h0, if_neg hcne, if_neg h27]
          have e2 : specEvents fg bg (c :: s') = (c, fg, bg) :: specEvents fg bg s' := by
            rw [specEvents_cons, if_neg h0, if_neg h27]
          have e3 : specCols fg bg (c :: s') = specCols fg bg s' := by
            rw [specCols_cons, if_neg h0, if_neg h27]
          have e4 : lineOk s' = true := by
            rw [lineOk_cons, if_neg h0, if_neg h27] at hOk
            exact hOk
          rw [e1, e2, e3]
          show _ = some (replay font (putchar2png font ctx c fg bg) (specEvents fg bg s'), _)
          exact ih s' (by simp at hs; omega) (putchar2png font ctx c fg bg) fg bg e4 hs255

theorem printLoopD_spec (font : Nat → Nat) :
    ∀ (n : Nat) (s : List Nat), s.length ≤ n → ∀ (ctx : Ctx) (fg bg : Color),
      lineOk s = true → 255 ∉ s →
      printLoopD font ctx fg bg s = some (replay font ctx (specEventsD fg bg s)) := by
  intro n
  induction n with
  | zero =>
    intro s hs ctx fg bg _hOk _h255
    have hnil : s = [] := List.length_eq_zero.mp (by omega)
    subst hnil
    rfl
  | succ n ih =>
    intro s hs ctx fg bg hOk h255
    cases s with
    | nil => rfl
    | cons c s' =>
      simp only [List.mem_cons, not_or] at h255
      obtain ⟨hc255, hs255⟩ := h255
      have hcne : ¬c = 255 := fun e => hc255 e.symm
      by_cases h0 : c = 0
      · subst h0
        rw [printLoopD_cons, specEventsD_cons]
        rw [if_pos (rfl : (0 : Nat) = 0), if_pos (rfl : (0 : Nat) = 0)]
        rfl
      · by_cases h27 : c = 27
        · subst h27
          cases s' with
          | nil => exact absurd hOk (by decide)
          | cons a t =>
            cases t with
            | nil => exact Bool.noConfusion (show false = true from hOk)
            | cons b t2 =>
              cases t2 with
              | nil => exact Bool.noConfusion (show false = true from hOk)
              | cons tm rest =>
                have hx : (decide (a < PALETTE_SZ) && decide (b < PALETTE_SZ)
                    && lineOk rest) = true := hOk
                simp only [Bool.and_eq_true, decide_eq_true_eq] at hx
                obtain ⟨⟨_ha, _hb⟩, hrest⟩ := hx
                have e1 : printLoopD font ctx fg bg (27 :: a :: b :: tm :: rest)
                    = printLoopD font ctx fg bg rest := rfl
                have e2 : specEventsD fg bg (27 :: a :: b :: tm :: rest)
                    = specEventsD fg bg rest := rfl
                have h255rest : (255 : Nat) ∉ rest := by
                  simp only [List.mem_cons, not_or] at hs255
                  exact hs255.2.2.2
                rw [e1, e2]
                exact ih rest (by simp at hs; omega) ctx fg bg hrest h255rest
        · have e1 : printLoopD font ctx fg bg (c :: s')
              = printLoopD font (putchar2png font ctx c fg bg) fg bg s' := by
            rw [printLoopD_cons, if_neg h0, if_neg hcne, if_neg h27]
          have e2 : specEventsD fg bg (c :: s') = (c, fg, bg) :: specEventsD fg bg s' := by
            rw [specEventsD_cons, if_neg h0, if_neg h27]
          have e4 : lineOk s' = true := by
            rw [lineOk_cons, if_neg h0, if_neg h27] at hOk
            exact hOk
          rw [e1, e2]
          show _ = some (replay font (putchar2png font ctx c fg bg) (specEventsD fg bg s'))
          exact ih s' (by simp at hs; omega) (putchar2png font ctx c fg bg) fg bg e4 hs255

/-- **C6** (evaluation at the failing input).  The decoder performs no
validation of the marker's palette-index bytes: on the marker
`[0x1B, 11, 9, 0]`, whose foreground index equals `PALETTE_SZ`, the source
reads `ctx->palette[11]` past the end of the 11-entry palette array —
undefined behaviour, to which the model assigns no result (`none`).  There
is no loud failure and no validation, contrary to the claim. -/
theorem c6_out_of_range_palette_index :
    print2png font0 ctxS [27, 11, 9, 0] = none := rfl

/-- **C7** (counterexample).  On a line holding a byte `0xFF` between two
markers, the decoder stops at that byte (`*s != EOF` read through a signed
`char`), so the following plain character is never composited: the claim,
which requires every plain character between markers to be composited with
the most recent marker's colours, fails on `sC7` (the decoded context is
not the replay of the spec events — no glyph at all is drawn, while the
spec events composite two). -/
theorem c7_counterexample :
    print2png font0 ctxS sC7
      ≠ some (replay font0 ctxS (specEvents (palette COL_DEFAULT) (palette COL_BACK) sC7),
          specCols (palette COL_DEFAULT) (palette COL_BACK) sC7) :=
  fun h =>
    absurd (congrArg (Option.map fun r => r.1.x) h) (by decide)

/-- **C7** (amended: restricted to well-formed highlighted lines — every
marker complete with in-range indices — containing no `0xFF` byte).  The
decoder renders no byte of any escape marker as a glyph and composites
every plain character with the colours selected by the most recent
preceding marker: its result is exactly the replay of the spec-side glyph
events, in both the normal build and the `DISABLE_SYNTAX_HIGHLIGHT` build
(which still consumes and skips the four marker bytes and keeps the
default colours). -/
theorem c7_decoder_refines_spec (font : Nat → Nat) (ctx : Ctx) (s : List Nat)
    (hOk : lineOk s = true) (h255 : 255 ∉ s) :
    print2png font ctx s
        = some (replay font ctx (specEvents (palette COL_DEFAULT) (palette COL_BACK) s),
            specCols (palette COL_DEFAULT) (palette COL_BACK) s) ∧
      print2pngD font ctx s
        = some (replay font ctx (specEventsD (palette COL_DEFAULT) (palette COL_BACK) s)) :=
  ⟨printLoop_spec font s.length s (le_refl _) ctx (palette COL_DEFAULT) (palette COL_BACK)
      hOk h255,
    printLoopD_spec font s.length s (le_refl _) ctx (palette COL_DEFAULT) (palette COL_BACK)
      hOk h255⟩

theorem c7_decoder_refines_spec_witness :
    lineOk sW7 = true ∧ (255 : Nat) ∉ sW7 ∧
      (print2png font0 ctxS sW7
          = some (replay font0 ctxS (specEvents (palette COL_DEFAULT) (palette COL_BACK) sW7),
              specCols (palette COL_DEFAULT) (palette COL_BACK) sW7) ∧
        print2pngD font0 ctxS sW7
          = some (replay font0 ctxS (specEventsD (palette COL_DEFAULT) (palette COL_BACK) sW7))) :=
  ⟨by decide, by decide, c7_decoder_refines_spec font0 ctxS sW7 (by decide) (by decide)⟩

/-- **C8**.  `print2png` — the one decoder invocation `file2png` makes per
physical line — always starts its scanning loop with the active colours
`(palette COL_DEFAULT, palette COL_BACK)`, whatever colours were active
when the previous line's invocation ended. -/
theorem c8_line_start_colors (font : Nat → Nat) (ctx : Ctx) (prev s : List Nat)
    (ctx1 : Ctx) (fgEnd bgEnd : Color)
    (hprev : print2png font ctx prev = some (ctx1, fgEnd, bgEnd)) :
    print2png font ctx1 s = printLoop font ctx1 (palette COL_DEFAULT) (palette COL_BACK) s :=
  rfl

theorem c8_line_start_colors_witness :
    print2png font0 ctxS [27, 5, 9, 0, 97]
        = some (putchar2png font0 ctxS 97 (palette 5) (palette 9), palette 5, palette 9) ∧
      print2png font0 (putchar2png font0 ctxS 97 (palette 5) (palette 9)) [98]
        = printLoop font0 (putchar2png font0 ctxS 97 (palette 5) (palette 9))
            (palette COL_DEFAULT) (palette COL_BACK) [98] :=
  ⟨rfl,
    c8_line_start_colors font0 ctxS [27, 5, 9, 0, 97] [98]
      (putchar2png font0 ctxS 97 (palette 5) (palette 9)) (palette 5) (palette 9) rfl⟩

theorem print2png_w (font : Nat → Nat) (ctx : Ctx) (s : List Nat) (r : Ctx × Color × Color)
    (h : print2png font ctx s = some r) : r.1.w = ctx.w :=
  printLoop_w font s.length s (le_refl _) ctx (palette COL_DEFAULT) (palette COL_BACK) r h

theorem file2pngGo_cons (font : Nat → Nat) (hl : List Nat → List Nat) (ctx : Ctx)
    (buf : List Nat) (c : Nat) (rest : List Nat) :
    file2pngGo font hl ctx buf (c :: rest)
      = if c = 255 then some ctx
        else if buf.length < ctx.w + 1 then
          if c = 10 then
            match print2png font ctx (hl buf) with
            | none => none
            | some r =>
              file2pngGo font hl
                (putchar2png font r.1 10 (palette COL_DEFAULT) (palette COL_BACK)) [] rest
          else file2pngGo font hl ctx (buf ++ [c]) rest
        else none := by
  rw [file2pngGo.eq_def]

theorem truncAtLastNl_cons (c : Nat) (rest : List Nat) :
    truncAtLastNl (c :: rest)
      = if 10 ∈ rest then c :: truncAtLastNl rest else if c = 10 then [10] else [] := by
  rw [truncAtLastNl.eq_def]

theorem fragAfter_cons (c : Nat) (rest : List Nat) :
    fragAfter (c :: rest)
      = if 10 ∈ rest then fragAfter rest else if c = 10 then rest else c :: rest := by
  rw [fragAfter.eq_def]

theorem fragAfter_no_nl : ∀ (l : List Nat), 10 ∉ l → fragAfter l = l := by
  intro l
  cases l with
  | nil => intro _; rfl
  | cons c rest =>
    intro h
    simp only [List.mem_cons, not_or] at h
    obtain ⟨h1, h2⟩ := h
    rw [fragAfter_cons, if_neg h2, if_neg (fun e => h1 e.symm)]

theorem file2pngGo_no_nl (font : Nat → Nat) (hl : List Nat → List Nat) :
    ∀ (frag : List Nat), 10 ∉ frag → ∀ (ctx : Ctx) (buf : List Nat),
      buf.length + frag.length ≤ ctx.w → file2pngGo font hl ctx buf frag = some ctx := by
  intro frag
  induction frag with
  | nil => intro _ ctx buf _; rfl
  | cons c rest ih =>
    intro hmem ctx buf hlen
    simp only [List.mem_cons, not_or] at hmem
    obtain ⟨hc10, hrest⟩ := hmem
    rw [file2pngGo_cons]
    by_cases hc255 : c = 255
    · rw [if_pos hc255]
    · have hassert : buf.length < ctx.w + 1 := by
        simp only [List.length_cons] at hlen
        omega
      have hnext : (buf ++ [c]).length + rest.length ≤ ctx.w := by
        simp only [List.length_append, List.length_cons, List.length_nil] at hlen ⊢
        omega
      rw [if_neg hc255, if_pos hassert, if_neg (fun e => hc10 e.symm)]
      exact ih hrest ctx (buf ++ [c]) hnext

theorem file2pngGo_trunc (font : Nat → Nat) (hl : List Nat → List Nat) :
    ∀ (content : List Nat) (ctx : Ctx) (buf : List Nat),
      (if 10 ∈ content then (fragAfter content).length ≤ ctx.w
       else buf.length + content.length ≤ ctx.w) →
      file2pngGo font hl ctx buf content
        = file2pngGo font hl ctx buf (truncAtLastNl content) := by
  intro content
  induction content with
  | nil => intro ctx buf _; rfl
  | cons c rest ih =>
    intro ctx buf hyp
    have hmemc : (10 : Nat) ∈ c :: rest ↔ 10 = c ∨ 10 ∈ rest := List.mem_cons
    by_cases hmem : (10 : Nat) ∈ rest
    · have hccons : (10 : Nat) ∈ c :: rest := List.mem_cons_of_mem c hmem
      rw [if_pos hccons] at hyp
      have hfrag : (fragAfter rest).length ≤ ctx.w := by
        rw [fragAfter_cons, if_pos hmem] at hyp
        exact hyp
      rw [truncAtLastNl_cons, if_pos hmem]
      rw [file2pngGo_cons, file2pngGo_cons]
      by_cases hc255 : c = 255
      · rw [if_pos hc255, if_pos hc255]
      · rw [if_neg hc255, if_neg hc255]
        by_cases hass : buf.length < ctx.w + 1
        · rw [if_pos hass, if_pos hass]
          by_cases hc10 : c = 10
          · rw [if_pos hc10, if_pos hc10]
            cases hp : print2png font ctx (hl buf) with
            | none => rfl
            | some r =>
              show file2pngGo font hl
                  (putchar2png font r.1 10 (palette COL_DEFAULT) (palette COL_BACK)) [] rest
                = file2pngGo font hl
                  (putchar2png font r.1 10 (palette COL_DEFAULT) (palette COL_BACK)) []
                  (truncAtLastNl rest)
              apply ih
              have hw2 : (putchar2png font r.1 10 (palette COL_DEFAULT) (palette COL_BACK)).w
                  = ctx.w := by
                rw [putchar2png_w]
                exact print2png_w font ctx (hl buf) r hp
              rw [if_pos hmem, hw2]
              exact hfrag
          · rw [if_neg hc10, if_neg hc10]
            apply ih
            rw [if_pos hmem]
            exact hfrag
        · rw [if_neg hass, if_neg hass]
    · by_cases hc10 : c = 10
      · subst hc10
        have hccons : (10 : Nat) ∈ 10 :: rest := List.mem_cons_self 10 rest
        rw [if_pos hccons] at hyp
        have hfr : fragAfter (10 :: rest) = rest := by
          rw [fragAfter_cons, if_neg hmem, if_pos rfl]
        rw [hfr] at hyp
        rw [truncAtLastNl_cons, if_neg hmem, if_pos rfl]
        rw [file2pngGo_cons, file2pngGo_cons]
        rw [if_neg (by decide : ¬(10 : Nat) = 255), if_neg (by decide : ¬(10 : Nat) = 255)]
        by_cases hass : buf.length < ctx.w + 1
        · rw [if_pos hass, if_pos hass,
            if_pos (rfl : (10 : Nat) = 10), if_pos (rfl : (10 : Nat) = 10)]
          cases hp : print2png font ctx (hl buf) with
          | none => rfl
          | some r =>
            show file2pngGo font hl
                (putchar2png font r.1 10 (palette COL_DEFAULT) (palette COL_BACK)) [] rest
              = file2pngGo font hl
                (putchar2png font r.1 10 (palette COL_DEFAULT) (palette COL_BACK)) [] []
            have hw2 : (putchar2png font r.1 10 (palette COL_DEFAULT) (palette COL_BACK)).w
                = ctx.w := by
              rw [putchar2png_w]
              exact print2png_w font ctx (hl buf) r hp
            show _ = some (putchar2png font r.1 10 (palette COL_DEFAULT) (palette COL_BACK))
            apply file2pngGo_no_nl font hl rest hmem
            rw [hw2]
            simpa using hyp
        · rw [if_neg hass, if_neg hass]
      · have hnot : (10 : Nat) ∉ c :: rest := by
          rw [hmemc]
          rintro (he | hm)
          · exact hc10 he.symm
          · exact hmem hm
        rw [if_neg hnot] at hyp
        have htr : truncAtLastNl (c :: rest) = [] := by
          rw [truncAtLastNl_cons, if_neg hmem, if_neg hc10]
        rw [htr]
        show _ = some ctx
        exact file2pngGo_no_nl font hl (c :: rest) hnot ctx buf hyp

set_option maxRecDepth 100000 in
/-- **C10** (counterexample).  The trailing characters after the last
newline are indeed never composited, but they *are* counted by the
dimension scan: on `c10input` (an empty line followed by 71 trailing `a`
characters) the full pipeline allocates a 446-pixel-wide image, while the
input truncated at its last newline yields a 440-pixel-wide image — the
produced images are not identical. -/
theorem c10_counterexample :
    render font0 hl0 c10input ≠ render font0 hl0 (truncAtLastNl c10input) :=
  fun h =>
    absurd (congrArg (Option.map fun k => k.wPx) h) (by decide)

/-- **C10** (amended: for a fixed rendering context — in particular a fixed
canvas and dimensions — and a trailing fragment that fits the line buffer).
The render pass reads the trailing characters into the line buffer but
never composites them: `file2png` produces exactly the same result on the
input as on the input truncated at its last newline.  (The full-pipeline
images can still differ in size, because the dimension scan counts the
trailing fragment toward the width, as the counterexample shows.) -/
theorem c10_render_pass_truncation (font : Nat → Nat) (hl : List Nat → List Nat)
    (ctx : Ctx) (content : List Nat)
    (hfrag : (fragAfter content).length ≤ ctx.w) :
    file2png font hl ctx content = file2png font hl ctx (truncAtLastNl content) := by
  unfold file2png
  apply file2pngGo_trunc
  by_cases hmem : (10 : Nat) ∈ content
  · rw [if_pos hmem]
    exact hfrag
  · rw [if_neg hmem]
    rw [fragAfter_no_nl content hmem] at hfrag
    simpa using hfrag

theorem c10_render_pass_truncation_witness :
    (fragAfter [97, 10, 98]).length ≤ ctxS.w ∧
      file2png font0 hl0 ctxS [97, 10, 98] = file2png font0 hl0 ctxS (truncAtLastNl [97, 10, 98]) :=
  ⟨by decide, c10_render_pass_truncation font0 hl0 ctxS [97, 10, 98] (by decide)⟩

set_option maxRecDepth 1000000 in
set_option maxHeartbeats 4000000 in
/-- **C1** (evaluation at the failing input).  The dimension scan counts a
tab as one character cell, but the compositor expands it to `TAB_SZ` space
glyphs; on `c1input` (one line of 18 tabs) the resolved width is
`MIN_W = 70` cells (`widthPx 70 = 440` pixels), yet the render pass writes
the space-glyph background colour at pixel column 441 — outside
`[0, w_px)`, i.e. a heap write past the end of the allocated row.  After
the render pass starting from the freshly allocated canvas, pixel
`(441, 10)` holds the glyph background colour even though every canvas
value started as `uninit`. -/
theorem c1_tab_write_out_of_bounds :
    (file2png font0 hl0 (ctx_init c1input) c1input).map (fun k => k.pixels 441 10)
        = some (palette COL_BACK) ∧
      (ctx_init c1input).wPx = 440 ∧
      440 ≤ 441 ∧
      palette COL_BACK ≠ uninit :=
  ⟨rfl, rfl, by decide, by decide⟩
